import Mathlib

/-!
# Verification of the ordered asynchronous inference driver

This development embeds the `do_inference` driver loop of
`notebooks/110-ct-segmentation-quantize/110-ct-segmentation-quantize.ipynb`.
The driver submits images to an asynchronous inference pipeline and displays
the results in input order:

```
next_frame_id = 0
next_frame_id_to_show = 0
while next_frame_id < len(imagelist) - 1:
    results = pipeline.get_result(next_frame_id_to_show)
    if results:
        result, meta = results
        display_handle = showarray(result, display_handle)
        next_frame_id_to_show += 1
    if pipeline.is_ready():
        image = imagelist[next_frame_id]
        pipeline.submit_data(inputs=..., id=next_frame_id, meta=...)
        next_frame_id += 1
    else:
        pipeline.await_any()
pipeline.await_all()
while pipeline.has_completed_request():
    results = pipeline.get_result(next_frame_id_to_show)
    if results:
        result, meta = results
        display_handle = showarray(result, display_handle)
        next_frame_id_to_show += 1
```

The pipeline object (`CTAsyncPipeline`, imported from an `async_inference`
module that is not part of the repository) is modelled from the spec as a
bounded-concurrency engine: it tracks the sequence ids that are in flight and
the ids whose completions have arrived but have not been fetched yet.
Completion order is adversarial: a `Sched` oracle decides, at every point
where the engine may make progress, which in-flight request completes.  The
oracle can also inject an engine failure at a chosen submission or at a
chosen blocking wait, which models the engine raising an error that the
driver (which has no handler) propagates.

Every observable interaction is recorded in an event log (`Ev`), and the
state carries ghost instrumentation (`maxInflight`, `maxOutstanding`) that
records the running maxima used to state the capacity-bound properties.
-/

/-- Observable events of a run: a submission (`sub i` carries the sequence
id), a `get_result` call (`getRes i` carries the id asked for), a delivery of
a result to the display (`disp i`), a completion arriving inside the engine
(`comp i`), a blocking `await_any` call, and the single `await_all` call. -/
inductive Ev where
  | sub : Nat → Ev
  | getRes : Nat → Ev
  | disp : Nat → Ev
  | comp : Nat → Ev
  | awaitAny : Ev
  | awaitAllE : Ev
deriving DecidableEq, Repr

/-- Modelled from the spec: the adversarial engine schedule.  The engine
services in-flight requests concurrently, so completions may arrive in any
order and at any point between driver operations.  `preA t` (resp. `preB t`)
is how many in-flight requests complete just before the `get_result` call
(resp. just before the `is_ready` check) of loop iteration `t`; `pick c`
chooses which in-flight request the `c`-th completion event finishes.
`failSubmit = some k` makes the engine raise on the submission of sequence
id `k`; `failAwait = some j` makes the `j`-th blocking `await_any` raise.
The raised error carries the opaque payload `failPayload`. -/
structure Sched where
  preA : Nat → Nat
  preB : Nat → Nat
  pick : Nat → Nat
  failSubmit : Option Nat
  failAwait : Option Nat
  failPayload : Nat

/-- The combined driver/engine state.  `nf` is `next_frame_id` (the
submission cursor), `ns` is `next_frame_id_to_show` (the delivery cursor).
`inflight` holds the ids submitted to the engine and not yet completed, in
submission order; `done` holds the ids whose completions arrived but were
not fetched yet.  `err` holds a propagated engine error.  `t` counts loop
iterations, `c` completion events, `a` blocking `await_any` calls.
`maxInflight` and `maxOutstanding` are ghost instrumentation: the running
maximum of `inflight.length` and of the number of submitted-but-undelivered
requests `nf - ns`. -/
structure St where
  nf : Nat
  ns : Nat
  inflight : List Nat
  done : List Nat
  log : List Ev
  err : Option Nat
  t : Nat
  c : Nat
  a : Nat
  maxInflight : Nat
  maxOutstanding : Nat
deriving Repr

/-- The sequence ids delivered to the display, in delivery order. -/
def disps (l : List Ev) : List Nat :=
  l.filterMap fun e => match e with | Ev.disp i => some i | _ => none

/-- The sequence ids submitted to the engine, in submission order. -/
def subs (l : List Ev) : List Nat :=
  l.filterMap fun e => match e with | Ev.sub i => some i | _ => none

/-- Number of deliveries recorded in the log. -/
def countD (l : List Ev) : Nat := (disps l).length

/-- Number of submissions recorded in the log. -/
def countS (l : List Ev) : Nat := (subs l).length

/-- Number of `get_result` calls recorded in the log. -/
def countGet (l : List Ev) : Nat :=
  (l.filter fun e => match e with | Ev.getRes _ => true | _ => false).length

/-- The index into `inflight` of the request the schedule completes next. -/
def pickIdx (sch : Sched) (s : St) : Nat := sch.pick s.c % s.inflight.length

/-- The sequence id of the request the schedule completes next. -/
def pickId (sch : Sched) (s : St) : Nat := s.inflight.getD (pickIdx sch s) 0

/-- Modelled from the spec: one completion event inside the engine.  If any
request is in flight, the schedule picks one of them; it moves from
`inflight` to `done` and the event is logged. -/
def completeOne (sch : Sched) (s : St) : St :=
  if s.inflight = [] then s
  else
    { s with inflight := s.inflight.eraseIdx (pickIdx sch s),
             done := s.done ++ [pickId sch s],
             log := s.log ++ [Ev.comp (pickId sch s)],
             c := s.c + 1 }

/-- `k` successive completion events. -/
def completeK (sch : Sched) : Nat → St → St
  | 0, s => s
  | k + 1, s => completeK sch k (completeOne sch s)

/-- The `results = pipeline.get_result(next_frame_id_to_show)` call followed
by the `if results:` body.  Modelled from the spec: `get_result(i)` returns
the completion for sequence id `i` when it has arrived, and a falsy value
otherwise.  On success the driver displays the result and increments the
delivery cursor. -/
def deliverStep (s : St) : St :=
  if s.ns ∈ s.done then
    { s with done := s.done.erase s.ns,
             ns := s.ns + 1,
             log := s.log ++ [Ev.getRes s.ns, Ev.disp s.ns] }
  else
    { s with log := s.log ++ [Ev.getRes s.ns] }

/-- The `pipeline.submit_data(..., id=next_frame_id, ...)` call followed by
`next_frame_id += 1`.  If the engine raises on this submission (per the
schedule), the error propagates: the driver has no handler.  Ghost maxima
are updated at the point the in-flight set grows. -/
def submitStep (sch : Sched) (s : St) : St :=
  if sch.failSubmit = some s.nf then
    { s with err := some sch.failPayload }
  else
    { s with inflight := s.inflight ++ [s.nf],
             log := s.log ++ [Ev.sub s.nf],
             nf := s.nf + 1,
             maxInflight := max s.maxInflight (s.inflight.length + 1),
             maxOutstanding := max s.maxOutstanding (s.nf + 1 - s.ns) }

/-- The blocking `pipeline.await_any()` call: it returns only once a further
completion has arrived.  The schedule may make this call raise instead. -/
def awaitAnyStep (sch : Sched) (s : St) : St :=
  if sch.failAwait = some s.a then
    { s with log := s.log ++ [Ev.awaitAny], a := s.a + 1,
             err := some sch.failPayload }
  else
    completeOne sch { s with log := s.log ++ [Ev.awaitAny], a := s.a + 1 }

/-- The state in the middle of a loop iteration: the engine has completed
`preA t` requests on its own, the driver has made its `get_result` call (and
possibly delivered), and the engine has completed `preB t` further requests,
right before the `is_ready` check. -/
def midSt (sch : Sched) (s : St) : St :=
  let s2 := deliverStep (completeK sch (sch.preA s.t) s)
  completeK sch (sch.preB s2.t) s2

/-- One iteration of the main `while` loop: the `get_result`/display part
(inside `midSt`), then the `is_ready` check — submit when the engine has
capacity, block on `await_any` otherwise. -/
def iterStep (cap : Nat) (sch : Sched) (s : St) : St :=
  let s4 := if (midSt sch s).inflight.length < cap then
              submitStep sch (midSt sch s)
            else awaitAnyStep sch (midSt sch s)
  { s4 with t := s4.t + 1 }

/-- The main loop `while next_frame_id < len(imagelist) - 1`, with explicit
fuel.  The loop also stops when an engine error has propagated (in Python
the exception unwinds out of the loop). -/
def mainLoop (n cap : Nat) (sch : Sched) : Nat → St → St
  | 0, s => s
  | fuel + 1, s =>
    if s.err = none ∧ s.nf < n - 1 then
      mainLoop n cap sch fuel (iterStep cap sch s)
    else s

/-- The `pipeline.await_all()` call: blocks until every in-flight request
has completed. -/
def awaitAllStep (sch : Sched) (s : St) : St :=
  completeK sch s.inflight.length { s with log := s.log ++ [Ev.awaitAllE] }

/-- The final drain loop `while pipeline.has_completed_request()`, with
explicit fuel.  Modelled from the spec: `has_completed_request()` reports
whether a completed, not-yet-fetched result exists. -/
def drainLoop : Nat → St → St
  | 0, s => s
  | fuel + 1, s =>
    if s.done = [] then s else drainLoop fuel (deliverStep s)

/-- The initial state: both cursors at 0, nothing in flight, empty log. -/
def initSt : St :=
  { nf := 0, ns := 0, inflight := [], done := [], log := [], err := none,
    t := 0, c := 0, a := 0, maxInflight := 0, maxOutstanding := 0 }

/-- A full run of `do_inference` on `n` inputs against an engine of
concurrent capacity `cap` driven by schedule `sch`.  The fuel `2*n + 2`
bounds the main loop (each iteration either submits or is followed by a
submission) and `n` bounds the drain loop.  If an engine error propagated
out of the main loop, the function has already unwound: neither `await_all`
nor the drain loop runs. -/
def run (n cap : Nat) (sch : Sched) : St :=
  let s := mainLoop n cap sch (2 * n + 2) initSt
  if s.err = none then drainLoop n (awaitAllStep sch s) else s

/-- The results displayed by a run, as payloads: the engine computes `f` on
the submitted input, so the completion for sequence id `i` carries
`f (inputs[i])`. -/
def runResults {α β : Type} (f : α → β) (inputs : List α) (cap : Nat)
    (sch : Sched) : List β :=
  ((disps (run inputs.length cap sch).log).filterMap fun i =>
    inputs[i]?).map f

/-- A simple schedule: the engine completes requests only while the driver
blocks, oldest first, and never fails. -/
def schedNone : Sched :=
  { preA := fun _ => 0, preB := fun _ => 0, pick := fun _ => 0,
    failSubmit := none, failAwait := none, failPayload := 0 }

/-- Prefix of the log strictly before the first occurrence of event `e`. -/
def prefTo (e : Ev) (l : List Ev) : List Ev := l.takeWhile fun x => x ≠ e

/-- Number of blocking `await_any` calls recorded in the log. -/
def countAw (l : List Ev) : Nat := (l.filter fun e => e = Ev.awaitAny).length

section ListHelpers

lemma getD_cons_eraseIdx_perm :
    ∀ (l : List Nat) (idx : Nat), idx < l.length →
      ((l.getD idx 0) :: l.eraseIdx idx).Perm l := by
  intro l
  induction l with
  | nil => intro idx h; simp at h
  | cons x xs ih =>
    intro idx h
    cases idx with
    | zero => simp
    | succ i =>
      have hi : i < xs.length := by simpa using h
      have hswap : List.Perm (xs.getD i 0 :: x :: xs.eraseIdx i)
          (x :: xs.getD i 0 :: xs.eraseIdx i) :=
        List.Perm.swap x (xs.getD i 0) _
      have htail : List.Perm (x :: xs.getD i 0 :: xs.eraseIdx i) (x :: xs) :=
        (ih i hi).cons x
      simpa using hswap.trans htail

lemma take_app_le {α : Type} (l : List α) (e : α) {k : Nat} (hk : k ≤ l.length) :
    (l ++ [e]).take k = l.take k := by
  rw [List.take_append_eq_append_take, Nat.sub_eq_zero_of_le hk]
  simp

lemma take_app_gt {α : Type} (l : List α) (e : α) {k : Nat} (hk : l.length < k) :
    (l ++ [e]).take k = l ++ [e] :=
  List.take_of_length_le (by simp; omega)

lemma filterMap_getElem_range {α : Type} (l : List α) :
    ∀ (k : Nat), k ≤ l.length →
      (List.range k).filterMap (fun i => l[i]?) = l.take k := by
  intro k
  induction k with
  | zero => intro _; simp
  | succ m ih =>
    intro h
    have hm : m ≤ l.length := Nat.le_of_succ_le h
    have hlt : m < l.length := h
    rw [List.range_succ, List.filterMap_append, ih hm, List.take_succ]
    simp [List.filterMap_cons, List.getElem?_eq_getElem hlt]

end ListHelpers

section LogLemmas

@[simp] lemma disps_nil : disps [] = [] := rfl

@[simp] lemma subs_nil : subs [] = [] := rfl

lemma disps_append (l l' : List Ev) : disps (l ++ l') = disps l ++ disps l' := by
  simp [disps]

lemma subs_append (l l' : List Ev) : subs (l ++ l') = subs l ++ subs l' := by
  simp [subs]

lemma countD_append (l l' : List Ev) : countD (l ++ l') = countD l + countD l' := by
  simp [countD, disps_append]

lemma countS_append (l l' : List Ev) : countS (l ++ l') = countS l + countS l' := by
  simp [countS, subs_append]

lemma countGet_append (l l' : List Ev) :
    countGet (l ++ l') = countGet l + countGet l' := by
  simp [countGet]

lemma countD_single_le (e : Ev) : countD [e] ≤ 1 := by
  cases e <;> simp [countD, disps]

lemma mem_disps {i : Nat} {l : List Ev} (h : Ev.disp i ∈ l) : i ∈ disps l := by
  simp only [disps, List.mem_filterMap]
  exact ⟨Ev.disp i, h, rfl⟩

/-- History property 1: at every prefix of the log, the delivered sequence
ids are exactly `0, 1, 2, ...` in order. -/
def TakeDisp (l : List Ev) : Prop :=
  ∀ k, disps (l.take k) = List.range (countD (l.take k))

/-- History property 2: at every prefix of the log, the number of deliveries
never exceeds the number of submissions. -/
def TakeDS (l : List Ev) : Prop :=
  ∀ k, countD (l.take k) ≤ countS (l.take k)

/-- History property 3: every `get_result` call asks for the id that equals
the number of deliveries made so far (the current delivery cursor). -/
def GetOK (l : List Ev) : Prop :=
  ∀ k i, l[k]? = some (Ev.getRes i) → i = countD (l.take k)

lemma takeDisp_nil : TakeDisp [] := by intro k; simp [countD]

lemma takeDS_nil : TakeDS [] := by intro k; simp [countD, countS]

lemma getOK_nil : GetOK [] := by intro k i h; simp at h

lemma takeDisp_append {l : List Ev} (e : Ev) (h : TakeDisp l)
    (he : disps [e] = [] ∨ e = Ev.disp (countD l)) : TakeDisp (l ++ [e]) := by
  intro k
  rcases le_or_lt k l.length with hk | hk
  · rw [take_app_le l e hk]; exact h k
  · rw [take_app_gt l e hk]
    have hfull := h l.length
    rw [List.take_length] at hfull
    rcases he with he | he
    · rw [disps_append, he, countD_append]
      simpa [countD, he] using hfull
    · subst he
      rw [disps_append, countD_append]
      have h1 : disps [Ev.disp (countD l)] = [countD l] := by simp [disps]
      have h2 : countD [Ev.disp (countD l)] = 1 := by simp [countD, disps]
      rw [h1, h2, hfull, ← List.range_succ]

lemma takeDS_append {l : List Ev} (e : Ev) (h : TakeDS l)
    (he : disps [e] = [] ∨ countD l < countS l) : TakeDS (l ++ [e]) := by
  intro k
  rcases le_or_lt k l.length with hk | hk
  · rw [take_app_le l e hk]; exact h k
  · rw [take_app_gt l e hk, countD_append, countS_append]
    have hfull := h l.length
    rw [List.take_length] at hfull
    rcases he with he | he
    · have : countD [e] = 0 := by simp [countD, he]
      omega
    · have := countD_single_le e
      omega

lemma getOK_append {l : List Ev} (e : Ev) (h : GetOK l)
    (he : (∀ i, e ≠ Ev.getRes i) ∨ e = Ev.getRes (countD l)) :
    GetOK (l ++ [e]) := by
  intro k i hki
  rcases Nat.lt_trichotomy k l.length with hk | hk | hk
  · rw [List.getElem?_append_left hk] at hki
    rw [take_app_le l e (Nat.le_of_lt hk)]
    exact h k i hki
  · subst hk
    have hsome : (l ++ [e])[l.length]? = some e := by
      rw [List.getElem?_append_right (Nat.le_refl _)]
      simp
    rw [hsome] at hki
    have heq : e = Ev.getRes i := by injection hki
    rw [take_app_le l e (Nat.le_refl _), List.take_length]
    rcases he with he | he
    · exact absurd heq (he i)
    · rw [he] at heq
      injection heq with h2
      exact h2.symm
  · have : (l ++ [e])[k]? = none := by
      apply List.getElem?_eq_none
      simp; omega
    rw [this] at hki
    exact absurd hki (by simp)

end LogLemmas

section AppendSimp

@[simp] lemma disps_app_sub (l : List Ev) (i : Nat) :
    disps (l ++ [Ev.sub i]) = disps l := by rw [disps_append]; simp [disps]

@[simp] lemma disps_app_get (l : List Ev) (i : Nat) :
    disps (l ++ [Ev.getRes i]) = disps l := by rw [disps_append]; simp [disps]

@[simp] lemma disps_app_disp (l : List Ev) (i : Nat) :
    disps (l ++ [Ev.disp i]) = disps l ++ [i] := by rw [disps_append]; simp [disps]

@[simp] lemma disps_app_comp (l : List Ev) (i : Nat) :
    disps (l ++ [Ev.comp i]) = disps l := by rw [disps_append]; simp [disps]

@[simp] lemma disps_app_awaitAny (l : List Ev) :
    disps (l ++ [Ev.awaitAny]) = disps l := by rw [disps_append]; simp [disps]

@[simp] lemma disps_app_awaitAll (l : List Ev) :
    disps (l ++ [Ev.awaitAllE]) = disps l := by rw [disps_append]; simp [disps]

@[simp] lemma subs_app_sub (l : List Ev) (i : Nat) :
    subs (l ++ [Ev.sub i]) = subs l ++ [i] := by rw [subs_append]; simp [subs]

@[simp] lemma subs_app_get (l : List Ev) (i : Nat) :
    subs (l ++ [Ev.getRes i]) = subs l := by rw [subs_append]; simp [subs]

@[simp] lemma subs_app_disp (l : List Ev) (i : Nat) :
    subs (l ++ [Ev.disp i]) = subs l := by rw [subs_append]; simp [subs]

@[simp] lemma subs_app_comp (l : List Ev) (i : Nat) :
    subs (l ++ [Ev.comp i]) = subs l := by rw [subs_append]; simp [subs]

@[simp] lemma subs_app_awaitAny (l : List Ev) :
    subs (l ++ [Ev.awaitAny]) = subs l := by rw [subs_append]; simp [subs]

@[simp] lemma subs_app_awaitAll (l : List Ev) :
    subs (l ++ [Ev.awaitAllE]) = subs l := by rw [subs_append]; simp [subs]

end AppendSimp

/-- The run invariant.  It ties the event log, the two cursors, the engine
state and the ghost instrumentation together, and characterises any
propagated error. -/
structure RunInv (n cap : Nat) (sch : Sched) (s : St) : Prop where
  hdisp : disps s.log = List.range s.ns
  hsub : subs s.log = List.range s.nf
  hnfle : s.nf ≤ n - 1
  hns : s.ns ≤ s.nf
  hperm : List.Perm (s.inflight ++ s.done) (List.range' s.ns (s.nf - s.ns))
  hinfl : s.inflight.length ≤ cap
  hmaxI : s.maxInflight ≤ cap
  htd : TakeDisp s.log
  hds : TakeDS s.log
  hget : GetOK s.log
  herr1 : ∀ e, s.err = some e → e = sch.failPayload
  herr2 : ∀ e, s.err = some e → sch.failAwait = none → sch.failSubmit = some s.nf
  herr3 : s.err = none → ∀ k, sch.failSubmit = some k → s.nf ≤ k
  herr0 : sch.failSubmit = none → sch.failAwait = none → s.err = none

lemma RunInv.cntD {n cap : Nat} {sch : Sched} {s : St} (h : RunInv n cap sch s) :
    countD s.log = s.ns := by rw [countD, h.hdisp, List.length_range]

lemma RunInv.cntS {n cap : Nat} {sch : Sched} {s : St} (h : RunInv n cap sch s) :
    countS s.log = s.nf := by rw [countS, h.hsub, List.length_range]

lemma RunInv.nodupID {n cap : Nat} {sch : Sched} {s : St} (h : RunInv n cap sch s) :
    (s.inflight ++ s.done).Nodup :=
  h.hperm.nodup_iff.mpr (List.nodup_range' _ _)

lemma RunInv.mem_union {n cap : Nat} {sch : Sched} {s : St} (h : RunInv n cap sch s)
    (i : Nat) : i ∈ s.inflight ++ s.done ↔ (s.ns ≤ i ∧ i < s.nf) := by
  rw [h.hperm.mem_iff, List.mem_range'_1]
  have := h.hns
  constructor
  · rintro ⟨h1, h2⟩; omega
  · rintro ⟨h1, h2⟩; exact ⟨h1, by omega⟩

lemma inv_init (n cap : Nat) (sch : Sched) : RunInv n cap sch initSt := by
  refine ⟨?_, ?_, ?_, ?_, ?_, ?_, ?_, takeDisp_nil, takeDS_nil, getOK_nil,
    ?_, ?_, ?_, ?_⟩ <;> simp [initSt, countD, countS]

section CompleteLemmas

lemma completeOne_ne (sch : Sched) (s : St) (hne : s.inflight ≠ []) :
    completeOne sch s =
      { s with inflight := s.inflight.eraseIdx (pickIdx sch s),
               done := s.done ++ [pickId sch s],
               log := s.log ++ [Ev.comp (pickId sch s)],
               c := s.c + 1 } := by
  simp [completeOne, hne]

lemma completeOne_nf (sch : Sched) (s : St) : (completeOne sch s).nf = s.nf := by
  unfold completeOne; split <;> rfl

lemma completeOne_ns (sch : Sched) (s : St) : (completeOne sch s).ns = s.ns := by
  unfold completeOne; split <;> rfl

lemma completeOne_err (sch : Sched) (s : St) : (completeOne sch s).err = s.err := by
  unfold completeOne; split <;> rfl

lemma completeOne_maxOut (sch : Sched) (s : St) :
    (completeOne sch s).maxOutstanding = s.maxOutstanding := by
  unfold completeOne; split <;> rfl

lemma pickIdx_lt {sch : Sched} {s : St} (hne : s.inflight ≠ []) :
    pickIdx sch s < s.inflight.length :=
  Nat.mod_lt _ (List.length_pos.mpr hne)

lemma completeOne_len (sch : Sched) (s : St) :
    (completeOne sch s).inflight.length = s.inflight.length - 1 := by
  by_cases hne : s.inflight = []
  · simp [completeOne, hne]
  · rw [completeOne_ne sch s hne]
    have := @pickIdx_lt sch s hne
    rw [List.length_eraseIdx]
    simp [this]

lemma completeOne_inv {n cap : Nat} {sch : Sched} {s : St}
    (h : RunInv n cap sch s) : RunInv n cap sch (completeOne sch s) := by
  by_cases hne : s.inflight = []
  · simpa [completeOne, hne] using h
  · rw [completeOne_ne sch s hne]
    have hlt : pickIdx sch s < s.inflight.length := pickIdx_lt hne
    have hp := getD_cons_eraseIdx_perm s.inflight (pickIdx sch s) hlt
    refine ⟨?_, ?_, h.hnfle, h.hns, ?_, ?_, h.hmaxI, ?_, ?_, ?_,
      h.herr1, h.herr2, h.herr3, h.herr0⟩
    · show disps (s.log ++ [Ev.comp (pickId sch s)]) = List.range s.ns
      simp [h.hdisp]
    · show subs (s.log ++ [Ev.comp (pickId sch s)]) = List.range s.nf
      simp [h.hsub]
    · show List.Perm
        (s.inflight.eraseIdx (pickIdx sch s) ++ (s.done ++ [pickId sch s]))
        (List.range' s.ns (s.nf - s.ns))
      have e1 : s.inflight.eraseIdx (pickIdx sch s) ++ (s.done ++ [pickId sch s])
          = (s.inflight.eraseIdx (pickIdx sch s) ++ s.done) ++ [pickId sch s] :=
        (List.append_assoc _ _ _).symm
      have e2 : pickId sch s :: (s.inflight.eraseIdx (pickIdx sch s) ++ s.done)
          = (pickId sch s :: s.inflight.eraseIdx (pickIdx sch s)) ++ s.done := rfl
      have step1 : List.Perm
          ((s.inflight.eraseIdx (pickIdx sch s) ++ s.done) ++ [pickId sch s])
          (pickId sch s :: (s.inflight.eraseIdx (pickIdx sch s) ++ s.done)) :=
        List.perm_append_comm
      have step2 : List.Perm
          ((pickId sch s :: s.inflight.eraseIdx (pickIdx sch s)) ++ s.done)
          (s.inflight ++ s.done) := hp.append_right s.done
      rw [e1]
      exact (step1.trans (by rw [e2] at step1 ⊢; exact step2)).trans h.hperm
    · show (s.inflight.eraseIdx (pickIdx sch s)).length ≤ cap
      have := h.hinfl
      rw [List.length_eraseIdx]
      split <;> omega
    · exact takeDisp_append _ h.htd (Or.inl (by simp [disps]))
    · exact takeDS_append _ h.hds (Or.inl (by simp [disps]))
    · exact getOK_append _ h.hget (Or.inl (by intro i; simp))

lemma completeK_nf (sch : Sched) (k : Nat) (s : St) :
    (completeK sch k s).nf = s.nf := by
  induction k generalizing s with
  | zero => rfl
  | succ m ih => rw [completeK, ih, completeOne_nf]

lemma completeK_ns (sch : Sched) (k : Nat) (s : St) :
    (completeK sch k s).ns = s.ns := by
  induction k generalizing s with
  | zero => rfl
  | succ m ih => rw [completeK, ih, completeOne_ns]

lemma completeK_err (sch : Sched) (k : Nat) (s : St) :
    (completeK sch k s).err = s.err := by
  induction k generalizing s with
  | zero => rfl
  | succ m ih => rw [completeK, ih, completeOne_err]

lemma completeK_maxOut (sch : Sched) (k : Nat) (s : St) :
    (completeK sch k s).maxOutstanding = s.maxOutstanding := by
  induction k generalizing s with
  | zero => rfl
  | succ m ih => rw [completeK, ih, completeOne_maxOut]

lemma completeK_len_le (sch : Sched) (k : Nat) (s : St) :
    (completeK sch k s).inflight.length ≤ s.inflight.length := by
  induction k generalizing s with
  | zero => exact Nat.le_refl _
  | succ m ih =>
    rw [completeK]
    calc (completeK sch m (completeOne sch s)).inflight.length
        ≤ (completeOne sch s).inflight.length := ih _
      _ ≤ s.inflight.length := by rw [completeOne_len]; omega

lemma completeK_len (sch : Sched) (k : Nat) (s : St) :
    (completeK sch k s).inflight.length = s.inflight.length - k := by
  induction k generalizing s with
  | zero => rfl
  | succ m ih =>
    rw [completeK, ih, completeOne_len]
    omega

lemma completeK_inv {n cap : Nat} {sch : Sched} (k : Nat) {s : St}
    (h : RunInv n cap sch s) : RunInv n cap sch (completeK sch k s) := by
  induction k generalizing s with
  | zero => exact h
  | succ m ih => exact ih (completeOne_inv h)

end CompleteLemmas

section DeliverLemmas

lemma deliverStep_mem_eq (s : St) (hm : s.ns ∈ s.done) :
    deliverStep s =
      { s with done := s.done.erase s.ns,
               ns := s.ns + 1,
               log := s.log ++ [Ev.getRes s.ns, Ev.disp s.ns] } := by
  simp [deliverStep, hm]

lemma deliverStep_not_mem_eq (s : St) (hm : s.ns ∉ s.done) :
    deliverStep s = { s with log := s.log ++ [Ev.getRes s.ns] } := by
  simp [deliverStep, hm]

lemma deliverStep_nf (s : St) : (deliverStep s).nf = s.nf := by
  unfold deliverStep; split <;> rfl

lemma deliverStep_err (s : St) : (deliverStep s).err = s.err := by
  unfold deliverStep; split <;> rfl

lemma deliverStep_inflight (s : St) : (deliverStep s).inflight = s.inflight := by
  unfold deliverStep; split <;> rfl

lemma deliverStep_t (s : St) : (deliverStep s).t = s.t := by
  unfold deliverStep; split <;> rfl

lemma deliverStep_maxOut (s : St) :
    (deliverStep s).maxOutstanding = s.maxOutstanding := by
  unfold deliverStep; split <;> rfl

lemma deliverStep_inv {n cap : Nat} {sch : Sched} {s : St}
    (h : RunInv n cap sch s) : RunInv n cap sch (deliverStep s) := by
  by_cases hm : s.ns ∈ s.done
  · have hnsnf : s.ns < s.nf := by
      have := (h.mem_union s.ns).mp (List.mem_append.mpr (Or.inr hm))
      omega
    have hnotin : s.ns ∉ s.inflight := by
      have hnod := h.nodupID
      rw [List.nodup_append] at hnod
      exact fun hin => hnod.2.2 hin hm
    rw [deliverStep_mem_eq s hm]
    have app2 : s.log ++ [Ev.getRes s.ns, Ev.disp s.ns]
        = (s.log ++ [Ev.getRes s.ns]) ++ [Ev.disp s.ns] := by simp
    refine ⟨?_, ?_, h.hnfle, hnsnf, ?_, h.hinfl, h.hmaxI, ?_, ?_, ?_,
      h.herr1, h.herr2, h.herr3, h.herr0⟩
    · show disps (s.log ++ [Ev.getRes s.ns, Ev.disp s.ns]) = List.range (s.ns + 1)
      rw [app2, disps_app_disp, disps_app_get, h.hdisp, ← List.range_succ]
    · show subs (s.log ++ [Ev.getRes s.ns, Ev.disp s.ns]) = List.range s.nf
      rw [app2, subs_app_disp, subs_app_get, h.hsub]
    · show List.Perm (s.inflight ++ s.done.erase s.ns)
        (List.range' (s.ns + 1) (s.nf - (s.ns + 1)))
      have e1 : s.inflight ++ s.done.erase s.ns
          = (s.inflight ++ s.done).erase s.ns :=
        (List.erase_append_right _ (by simpa using hnotin)).symm
      have hd : s.nf - s.ns = (s.nf - (s.ns + 1)) + 1 := by omega
      have e2 : List.range' s.ns (s.nf - s.ns)
          = s.ns :: List.range' (s.ns + 1) (s.nf - (s.ns + 1)) := by
        rw [hd, List.range'_succ]
      have := h.hperm.erase s.ns
      rw [e2] at this
      rw [e1]
      simpa using this
    · show TakeDisp (s.log ++ [Ev.getRes s.ns, Ev.disp s.ns])
      rw [app2]
      refine takeDisp_append _ (takeDisp_append _ h.htd (Or.inl (by simp [disps]))) ?_
      exact Or.inr (by simp [countD, h.hdisp])
    · show TakeDS (s.log ++ [Ev.getRes s.ns, Ev.disp s.ns])
      rw [app2]
      refine takeDS_append _ (takeDS_append _ h.hds (Or.inl (by simp [disps]))) ?_
      exact Or.inr (by simpa [countD, countS, h.hdisp, h.hsub] using hnsnf)
    · show GetOK (s.log ++ [Ev.getRes s.ns, Ev.disp s.ns])
      rw [app2]
      refine getOK_append _ (getOK_append _ h.hget ?_) (Or.inl (by intro i; simp))
      exact Or.inr (by simp [countD, h.hdisp])
  · rw [deliverStep_not_mem_eq s hm]
    refine ⟨?_, ?_, h.hnfle, h.hns, h.hperm, h.hinfl, h.hmaxI, ?_, ?_, ?_,
      h.herr1, h.herr2, h.herr3, h.herr0⟩
    · show disps (s.log ++ [Ev.getRes s.ns]) = List.range s.ns
      simp [h.hdisp]
    · show subs (s.log ++ [Ev.getRes s.ns]) = List.range s.nf
      simp [h.hsub]
    · exact takeDisp_append _ h.htd (Or.inl (by simp [disps]))
    · exact takeDS_append _ h.hds (Or.inl (by simp [disps]))
    · exact getOK_append _ h.hget (Or.inr (by simp [countD, h.hdisp]))

end DeliverLemmas

section SubmitAwaitLemmas

lemma submitStep_fail_eq (sch : Sched) (s : St)
    (hf : sch.failSubmit = some s.nf) :
    submitStep sch s = { s with err := some sch.failPayload } := by
  simp [submitStep, hf]

lemma submitStep_ok_eq (sch : Sched) (s : St)
    (hf : ¬ sch.failSubmit = some s.nf) :
    submitStep sch s =
      { s with inflight := s.inflight ++ [s.nf],
               log := s.log ++ [Ev.sub s.nf],
               nf := s.nf + 1,
               maxInflight := max s.maxInflight (s.inflight.length + 1),
               maxOutstanding := max s.maxOutstanding (s.nf + 1 - s.ns) } := by
  simp [submitStep, hf]

lemma submitStep_inv {n cap : Nat} {sch : Sched} {s : St}
    (h : RunInv n cap sch s) (he : s.err = none) (hlt : s.nf < n - 1)
    (hc : s.inflight.length < cap) :
    RunInv n cap sch (submitStep sch s) := by
  by_cases hf : sch.failSubmit = some s.nf
  · rw [submitStep_fail_eq sch s hf]
    refine ⟨h.hdisp, h.hsub, h.hnfle, h.hns, h.hperm, h.hinfl, h.hmaxI,
      h.htd, h.hds, h.hget, ?_, ?_, ?_, ?_⟩
    · intro e hee
      injection hee with hee
      exact hee.symm
    · intro e _ _
      exact hf
    · intro hcon
      exact absurd hcon (by simp)
    · intro h0 _
      rw [h0] at hf
      exact absurd hf (by simp)
  · rw [submitStep_ok_eq sch s hf]
    refine ⟨?_, ?_, ?_, ?_, ?_, ?_, ?_, ?_, ?_, ?_,
      ?_, ?_, ?_, ?_⟩
    · show disps (s.log ++ [Ev.sub s.nf]) = List.range s.ns
      simp [h.hdisp]
    · show subs (s.log ++ [Ev.sub s.nf]) = List.range (s.nf + 1)
      rw [subs_app_sub, h.hsub, ← List.range_succ]
    · show s.nf + 1 ≤ n - 1
      omega
    · show s.ns ≤ s.nf + 1
      have := h.hns
      omega
    · show List.Perm ((s.inflight ++ [s.nf]) ++ s.done)
        (List.range' s.ns (s.nf + 1 - s.ns))
      have hns := h.hns
      have hd : s.nf + 1 - s.ns = (s.nf - s.ns) + 1 := by omega
      have hx : s.ns + 1 * (s.nf - s.ns) = s.nf := by omega
      have e1 : (s.inflight ++ [s.nf]) ++ s.done
          = s.inflight ++ ([s.nf] ++ s.done) := List.append_assoc _ _ _
      have p1 : List.Perm (s.inflight ++ ([s.nf] ++ s.done))
          (s.inflight ++ (s.done ++ [s.nf])) :=
        List.Perm.append_left _ List.perm_append_comm
      have e2 : s.inflight ++ (s.done ++ [s.nf])
          = (s.inflight ++ s.done) ++ [s.nf] := (List.append_assoc _ _ _).symm
      have p2 : List.Perm ((s.inflight ++ s.done) ++ [s.nf])
          (List.range' s.ns (s.nf - s.ns) ++ [s.nf]) :=
        h.hperm.append_right _
      rw [e1, hd, List.range'_concat, hx]
      exact p1.trans (by rw [e2]; exact p2)
    · show (s.inflight ++ [s.nf]).length ≤ cap
      simp
      omega
    · show max s.maxInflight (s.inflight.length + 1) ≤ cap
      exact Nat.max_le.mpr ⟨h.hmaxI, by omega⟩
    · exact takeDisp_append _ h.htd (Or.inl (by simp [disps]))
    · exact takeDS_append _ h.hds (Or.inl (by simp [disps]))
    · exact getOK_append _ h.hget (Or.inl (by intro i; simp))
    · intro e hee
      rw [he] at hee
      exact absurd hee (by simp)
    · intro e hee
      rw [he] at hee
      exact absurd hee (by simp)
    · intro _ k hk
      have h1 := h.herr3 he k hk
      have h2 : ¬ k = s.nf := fun hkk => hf (by rw [← hkk]; exact hk)
      show s.nf + 1 ≤ k
      omega
    · intro _ _
      exact he

lemma awaitAnyStep_inv {n cap : Nat} {sch : Sched} {s : St}
    (h : RunInv n cap sch s) : RunInv n cap sch (awaitAnyStep sch s) := by
  have hmid : RunInv n cap sch
      { s with log := s.log ++ [Ev.awaitAny], a := s.a + 1 } := by
    refine ⟨?_, ?_, h.hnfle, h.hns, h.hperm, h.hinfl, h.hmaxI, ?_, ?_, ?_,
      h.herr1, h.herr2, h.herr3, h.herr0⟩
    · show disps (s.log ++ [Ev.awaitAny]) = List.range s.ns
      simp [h.hdisp]
    · show subs (s.log ++ [Ev.awaitAny]) = List.range s.nf
      simp [h.hsub]
    · exact takeDisp_append _ h.htd (Or.inl (by simp [disps]))
    · exact takeDS_append _ h.hds (Or.inl (by simp [disps]))
    · exact getOK_append _ h.hget (Or.inl (by intro i; simp))
  by_cases hf : sch.failAwait = some s.a
  · have heq : awaitAnyStep sch s =
        { s with log := s.log ++ [Ev.awaitAny], a := s.a + 1,
                 err := some sch.failPayload } := by
      simp [awaitAnyStep, hf]
    rw [heq]
    refine ⟨hmid.hdisp, hmid.hsub, h.hnfle, h.hns, h.hperm, h.hinfl, h.hmaxI,
      hmid.htd, hmid.hds, hmid.hget, ?_, ?_, ?_, ?_⟩
    · intro e hee
      injection hee with hee
      exact hee.symm
    · intro e _ hna
      rw [hna] at hf
      exact absurd hf (by simp)
    · intro hcon
      exact absurd hcon (by simp)
    · intro _ hna
      rw [hna] at hf
      exact absurd hf (by simp)
  · have heq : awaitAnyStep sch s =
        completeOne sch { s with log := s.log ++ [Ev.awaitAny], a := s.a + 1 } := by
      simp [awaitAnyStep, hf]
    rw [heq]
    exact completeOne_inv hmid

end SubmitAwaitLemmas

section IterLemmas

lemma runInv_t {n cap : Nat} {sch : Sched} {s : St} (x : Nat)
    (h : RunInv n cap sch s) : RunInv n cap sch { s with t := x } :=
  ⟨h.hdisp, h.hsub, h.hnfle, h.hns, h.hperm, h.hinfl, h.hmaxI, h.htd, h.hds,
   h.hget, h.herr1, h.herr2, h.herr3, h.herr0⟩

lemma midSt_inv {n cap : Nat} {sch : Sched} {s : St}
    (h : RunInv n cap sch s) : RunInv n cap sch (midSt sch s) :=
  completeK_inv _ (deliverStep_inv (completeK_inv _ h))

lemma midSt_err (sch : Sched) (s : St) : (midSt sch s).err = s.err := by
  unfold midSt
  rw [completeK_err, deliverStep_err, completeK_err]

lemma midSt_nf (sch : Sched) (s : St) : (midSt sch s).nf = s.nf := by
  unfold midSt
  rw [completeK_nf, deliverStep_nf, completeK_nf]

lemma midSt_maxOut (sch : Sched) (s : St) :
    (midSt sch s).maxOutstanding = s.maxOutstanding := by
  unfold midSt
  rw [completeK_maxOut, deliverStep_maxOut, completeK_maxOut]

lemma midSt_len_le (sch : Sched) (s : St) :
    (midSt sch s).inflight.length ≤ s.inflight.length := by
  unfold midSt
  calc (completeK sch _ (deliverStep (completeK sch (sch.preA s.t) s))).inflight.length
      ≤ (deliverStep (completeK sch (sch.preA s.t) s)).inflight.length :=
        completeK_len_le _ _ _
    _ = (completeK sch (sch.preA s.t) s).inflight.length := by
        rw [deliverStep_inflight]
    _ ≤ s.inflight.length := completeK_len_le _ _ _

lemma iterStep_pos (cap : Nat) (sch : Sched) (s : St)
    (hc : (midSt sch s).inflight.length < cap) :
    iterStep cap sch s =
      { submitStep sch (midSt sch s) with
        t := (submitStep sch (midSt sch s)).t + 1 } := by
  simp [iterStep, hc]

lemma iterStep_neg (cap : Nat) (sch : Sched) (s : St)
    (hc : ¬ (midSt sch s).inflight.length < cap) :
    iterStep cap sch s =
      { awaitAnyStep sch (midSt sch s) with
        t := (awaitAnyStep sch (midSt sch s)).t + 1 } := by
  simp [iterStep, hc]

lemma iterStep_inv {n cap : Nat} {sch : Sched} {s : St}
    (h : RunInv n cap sch s) (he : s.err = none) (hlt : s.nf < n - 1) :
    RunInv n cap sch (iterStep cap sch s) := by
  have hm := @midSt_inv n cap sch s h
  by_cases hc : (midSt sch s).inflight.length < cap
  · rw [iterStep_pos cap sch s hc]
    exact runInv_t _ (submitStep_inv hm (by rw [midSt_err]; exact he)
      (by rw [midSt_nf]; exact hlt) hc)
  · rw [iterStep_neg cap sch s hc]
    exact runInv_t _ (awaitAnyStep_inv hm)

/-- Termination measure of the main loop: the distance of the submission
cursor to the loop bound (weight 2), plus one when the engine is at
capacity (the next iteration then blocks instead of submitting). -/
def mu (n cap : Nat) (s : St) : Nat :=
  2 * ((n - 1) - s.nf) + (if s.inflight.length < cap then 0 else 1)

lemma iter_mu {n cap : Nat} {sch : Sched} {s : St} (hcap : 1 ≤ cap)
    (h : RunInv n cap sch s) (hlt : s.nf < n - 1)
    (he' : (iterStep cap sch s).err = none) :
    mu n cap (iterStep cap sch s) < mu n cap s := by
  have hm := @midSt_inv n cap sch s h
  by_cases hc : (midSt sch s).inflight.length < cap
  · by_cases hf : sch.failSubmit = some (midSt sch s).nf
    · exfalso
      rw [iterStep_pos cap sch s hc] at he'
      have he2 : (submitStep sch (midSt sch s)).err = none := he'
      rw [submitStep_fail_eq _ _ hf] at he2
      exact absurd he2 (by simp)
    · have hnf' : (iterStep cap sch s).nf = s.nf + 1 := by
        rw [iterStep_pos cap sch s hc]
        show (submitStep sch (midSt sch s)).nf = s.nf + 1
        rw [submitStep_ok_eq _ _ hf]
        show (midSt sch s).nf + 1 = s.nf + 1
        rw [midSt_nf]
      have hf1 : (if (iterStep cap sch s).inflight.length < cap then 0 else 1) ≤ 1 := by
        split <;> omega
      unfold mu
      omega
  · by_cases hfa : sch.failAwait = some (midSt sch s).a
    · exfalso
      rw [iterStep_neg cap sch s hc] at he'
      have he2 : (awaitAnyStep sch (midSt sch s)).err = none := he'
      have haw : (awaitAnyStep sch (midSt sch s)).err = some sch.failPayload := by
        simp [awaitAnyStep, hfa]
      rw [haw] at he2
      exact absurd he2 (by simp)
    · have heqa : awaitAnyStep sch (midSt sch s) =
          completeOne sch { midSt sch s with
            log := (midSt sch s).log ++ [Ev.awaitAny],
            a := (midSt sch s).a + 1 } := by
        simp [awaitAnyStep, hfa]
      have hlen : (midSt sch s).inflight.length = cap := by
        have := hm.hinfl
        omega
      have hnf' : (iterStep cap sch s).nf = s.nf := by
        rw [iterStep_neg cap sch s hc]
        show (awaitAnyStep sch (midSt sch s)).nf = s.nf
        rw [heqa, completeOne_nf]
        show (midSt sch s).nf = s.nf
        exact midSt_nf sch s
      have hlen' : (iterStep cap sch s).inflight.length < cap := by
        rw [iterStep_neg cap sch s hc]
        show (awaitAnyStep sch (midSt sch s)).inflight.length < cap
        rw [heqa, completeOne_len]
        show (midSt sch s).inflight.length - 1 < cap
        omega
      have hsf : ¬ s.inflight.length < cap := by
        have := midSt_len_le sch s
        omega
      have hA : (if (iterStep cap sch s).inflight.length < cap then (0 : Nat) else 1) = 0 :=
        if_pos hlen'
      have hB : (if s.inflight.length < cap then (0 : Nat) else 1) = 1 :=
        if_neg hsf
      unfold mu
      omega

end IterLemmas

section LoopLemmas

lemma mainLoop_stop {n cap : Nat} {sch : Sched} {s : St} (fuel : Nat)
    (h : ¬ (s.err = none ∧ s.nf < n - 1)) :
    mainLoop n cap sch fuel s = s := by
  cases fuel <;> simp [mainLoop, h]

lemma mainLoop_go {n cap : Nat} {sch : Sched} {s : St} (fuel : Nat)
    (h : s.err = none ∧ s.nf < n - 1) :
    mainLoop n cap sch (fuel + 1) s = mainLoop n cap sch fuel (iterStep cap sch s) := by
  simp [mainLoop, h]

lemma mainLoop_inv {n cap : Nat} {sch : Sched} :
    ∀ (fuel : Nat) (s : St), RunInv n cap sch s →
      RunInv n cap sch (mainLoop n cap sch fuel s) := by
  intro fuel
  induction fuel with
  | zero => intro s h; exact h
  | succ m ih =>
    intro s h
    by_cases hgo : s.err = none ∧ s.nf < n - 1
    · rw [mainLoop_go m hgo]
      exact ih _ (iterStep_inv h hgo.1 hgo.2)
    · rw [mainLoop_stop (m + 1) hgo]
      exact h

lemma mainLoop_spec {n cap : Nat} {sch : Sched} (hcap : 1 ≤ cap) :
    ∀ (fuel : Nat) (s : St), RunInv n cap sch s → mu n cap s < fuel →
      RunInv n cap sch (mainLoop n cap sch fuel s) ∧
      (¬ (mainLoop n cap sch fuel s).err = none ∨
        ¬ (mainLoop n cap sch fuel s).nf < n - 1) := by
  intro fuel
  induction fuel with
  | zero => intro s _ hmu; exact absurd hmu (Nat.not_lt_zero _)
  | succ m ih =>
    intro s h hmu
    by_cases hgo : s.err = none ∧ s.nf < n - 1
    · rw [mainLoop_go m hgo]
      have hinv' := iterStep_inv h hgo.1 hgo.2
      by_cases he' : (iterStep cap sch s).err = none
      · have hdec := iter_mu hcap h hgo.2 he'
        exact ih _ hinv' (by omega)
      · rw [mainLoop_stop m (fun hcon => he' hcon.1)]
        exact ⟨hinv', Or.inl he'⟩
    · rw [mainLoop_stop (m + 1) hgo]
      exact ⟨h, not_and_or.mp hgo⟩

lemma completeOne_log (sch : Sched) (s : St) :
    ∃ lc, (completeOne sch s).log = s.log ++ lc ∧
      ∀ e ∈ lc, ∃ i, e = Ev.comp i := by
  by_cases hne : s.inflight = []
  · exact ⟨[], by simp [completeOne, hne], by simp⟩
  · refine ⟨[Ev.comp (pickId sch s)], ?_, by simp⟩
    rw [completeOne_ne sch s hne]

lemma completeK_log (sch : Sched) :
    ∀ (k : Nat) (s : St), ∃ lc, (completeK sch k s).log = s.log ++ lc ∧
      ∀ e ∈ lc, ∃ i, e = Ev.comp i := by
  intro k
  induction k with
  | zero => intro s; exact ⟨[], by simp [completeK], by simp⟩
  | succ m ih =>
    intro s
    obtain ⟨l1, h1, hc1⟩ := completeOne_log sch s
    obtain ⟨l2, h2, hc2⟩ := ih (completeOne sch s)
    refine ⟨l1 ++ l2, ?_, ?_⟩
    · rw [completeK, h2, h1, List.append_assoc]
    · intro e he
      rcases List.mem_append.mp he with he | he
      · exact hc1 e he
      · exact hc2 e he

lemma awaitAllStep_inv {n cap : Nat} {sch : Sched} {s : St}
    (h : RunInv n cap sch s) : RunInv n cap sch (awaitAllStep sch s) := by
  unfold awaitAllStep
  apply completeK_inv
  refine ⟨?_, ?_, h.hnfle, h.hns, h.hperm, h.hinfl, h.hmaxI, ?_, ?_, ?_,
    h.herr1, h.herr2, h.herr3, h.herr0⟩
  · show disps (s.log ++ [Ev.awaitAllE]) = List.range s.ns
    simp [h.hdisp]
  · show subs (s.log ++ [Ev.awaitAllE]) = List.range s.nf
    simp [h.hsub]
  · exact takeDisp_append _ h.htd (Or.inl (by simp [disps]))
  · exact takeDS_append _ h.hds (Or.inl (by simp [disps]))
  · exact getOK_append _ h.hget (Or.inl (by intro i; simp))

lemma awaitAllStep_inflight (sch : Sched) (s : St) :
    (awaitAllStep sch s).inflight = [] := by
  unfold awaitAllStep
  rw [← List.length_eq_zero]
  rw [completeK_len]
  show s.inflight.length - s.inflight.length = 0
  omega

lemma awaitAllStep_err (sch : Sched) (s : St) :
    (awaitAllStep sch s).err = s.err := by
  unfold awaitAllStep
  rw [completeK_err]

lemma awaitAllStep_nf (sch : Sched) (s : St) :
    (awaitAllStep sch s).nf = s.nf := by
  unfold awaitAllStep
  rw [completeK_nf]

lemma awaitAllStep_maxOut (sch : Sched) (s : St) :
    (awaitAllStep sch s).maxOutstanding = s.maxOutstanding := by
  unfold awaitAllStep
  rw [completeK_maxOut]

lemma awaitAllStep_log (sch : Sched) (s : St) :
    ∃ lc, (awaitAllStep sch s).log = s.log ++ Ev.awaitAllE :: lc ∧
      ∀ e ∈ lc, ∃ i, e = Ev.comp i := by
  unfold awaitAllStep
  obtain ⟨lc, hl, hcomp⟩ :=
    completeK_log sch s.inflight.length { s with log := s.log ++ [Ev.awaitAllE] }
  refine ⟨lc, ?_, hcomp⟩
  rw [hl]
  show (s.log ++ [Ev.awaitAllE]) ++ lc = s.log ++ Ev.awaitAllE :: lc
  simp

end LoopLemmas

section DrainLemmas

lemma drainLoop_stop {s : St} (n : Nat) (hd : s.done = []) :
    drainLoop n s = s := by
  cases n <;> simp [drainLoop, hd]

lemma drainLoop_go {s : St} (fuel : Nat) (hd : ¬ s.done = []) :
    drainLoop (fuel + 1) s = drainLoop fuel (deliverStep s) := by
  simp [drainLoop, hd]

lemma mem_done_of_ne {n cap : Nat} {sch : Sched} {s : St}
    (h : RunInv n cap sch s) (hi : s.inflight = []) (hd : ¬ s.done = []) :
    s.ns ∈ s.done := by
  have hpm := h.hperm
  rw [hi, List.nil_append] at hpm
  have hlen : s.done.length = s.nf - s.ns := by
    rw [hpm.length_eq, List.length_range']
  have hpos : 0 < s.nf - s.ns := by
    have := List.length_pos.mpr hd
    omega
  have : s.ns ∈ List.range' s.ns (s.nf - s.ns) :=
    List.mem_range'_1.mpr ⟨Nat.le_refl _, by omega⟩
  exact hpm.mem_iff.mpr this

lemma ns_eq_nf_of_empty {n cap : Nat} {sch : Sched} {s : St}
    (h : RunInv n cap sch s) (hi : s.inflight = []) (hd : s.done = []) :
    s.ns = s.nf := by
  have hpm := h.hperm
  rw [hi, hd] at hpm
  have := hpm.length_eq
  rw [List.length_range'] at this
  simp at this
  have := h.hns
  omega

lemma comps_only_counts {lc : List Ev} (h : ∀ e ∈ lc, ∃ i, e = Ev.comp i) :
    countGet lc = 0 ∧ countD lc = 0 ∧ Ev.awaitAny ∉ lc := by
  induction lc with
  | nil => simp [countGet, countD, disps]
  | cons e tl ih =>
    obtain ⟨i, rfl⟩ := h e (by simp)
    obtain ⟨h1, h2, h3⟩ := ih (fun e he => h e (by simp [he]))
    refine ⟨?_, ?_, ?_⟩
    · simpa [countGet] using h1
    · simpa [countD, disps] using h2
    · simp [h3]

lemma drainLoop_spec {n cap : Nat} {sch : Sched} :
    ∀ (fuel : Nat) (s : St), RunInv n cap sch s → s.inflight = [] →
      s.done.length ≤ fuel →
      RunInv n cap sch (drainLoop fuel s) ∧
      (drainLoop fuel s).done = [] ∧
      (drainLoop fuel s).inflight = [] ∧
      (drainLoop fuel s).err = s.err ∧
      (drainLoop fuel s).nf = s.nf ∧
      (drainLoop fuel s).maxOutstanding = s.maxOutstanding ∧
      ∃ l2, (drainLoop fuel s).log = s.log ++ l2 ∧
        countGet l2 = countD l2 ∧ Ev.awaitAny ∉ l2 := by
  intro fuel
  induction fuel with
  | zero =>
    intro s h hi hlen
    have hd : s.done = [] := by
      rw [← List.length_eq_zero]
      omega
    rw [drainLoop_stop 0 hd]
    refine ⟨h, hd, hi, rfl, rfl, rfl, [], by simp, by simp [countGet, countD, disps], by simp⟩
  | succ m ih =>
    intro s h hi hlen
    by_cases hd : s.done = []
    · rw [drainLoop_stop (m + 1) hd]
      exact ⟨h, hd, hi, rfl, rfl, rfl, [], by simp,
        by simp [countGet, countD, disps], by simp⟩
    · rw [drainLoop_go m hd]
      have hm : s.ns ∈ s.done := mem_done_of_ne h hi hd
      have hinv' := deliverStep_inv h
      have hi' : (deliverStep s).inflight = [] := by
        rw [deliverStep_inflight]; exact hi
      have hlen' : (deliverStep s).done.length ≤ m := by
        rw [deliverStep_mem_eq s hm]
        show (s.done.erase s.ns).length ≤ m
        rw [List.length_erase_of_mem hm]
        omega
      obtain ⟨c1, c2, c3, c4, c5, c6, l2, hlog, hcnt, hnaw⟩ := ih _ hinv' hi' hlen'
      refine ⟨c1, c2, c3, ?_, ?_, ?_, ?_⟩
      · rw [c4, deliverStep_err]
      · rw [c5, deliverStep_nf]
      · rw [c6, deliverStep_maxOut]
      · refine ⟨[Ev.getRes s.ns, Ev.disp s.ns] ++ l2, ?_, ?_, ?_⟩
        · rw [hlog, deliverStep_mem_eq s hm]
          show s.log ++ [Ev.getRes s.ns, Ev.disp s.ns] ++ l2 = _
          rw [List.append_assoc]
        · rw [countGet_append, countD_append]
          have hg : countGet [Ev.getRes s.ns, Ev.disp s.ns] = 1 := by
            simp [countGet]
          have hdd : countD [Ev.getRes s.ns, Ev.disp s.ns] = 1 := by
            simp [countD, disps]
          omega
        · simp [hnaw]

end DrainLemmas

section RunLemmas

lemma run_eq (n cap : Nat) (sch : Sched) :
    run n cap sch =
      if (mainLoop n cap sch (2 * n + 2) initSt).err = none
      then drainLoop n (awaitAllStep sch (mainLoop n cap sch (2 * n + 2) initSt))
      else mainLoop n cap sch (2 * n + 2) initSt := rfl

lemma awaitAll_done_len {n cap : Nat} {sch : Sched} {s : St}
    (h : RunInv n cap sch (awaitAllStep sch s)) :
    (awaitAllStep sch s).done.length ≤ n := by
  have h1 := h.hperm.length_eq
  rw [awaitAllStep_inflight, List.nil_append, List.length_range'] at h1
  have h2 := h.hnfle
  have h3 := h.hns
  omega

lemma run_inv (n cap : Nat) (sch : Sched) : RunInv n cap sch (run n cap sch) := by
  rw [run_eq]
  have hm := mainLoop_inv (2 * n + 2) initSt (inv_init n cap sch)
  by_cases he : (mainLoop n cap sch (2 * n + 2) initSt).err = none
  · rw [if_pos he]
    have ha := awaitAllStep_inv hm
    exact (drainLoop_spec n _ ha (awaitAllStep_inflight sch _)
      (awaitAll_done_len ha)).1
  · rw [if_neg he]
    exact hm

lemma mu_init_lt {n cap : Nat} (hcap : 1 ≤ cap) : mu n cap initSt < 2 * n + 2 := by
  have hin : initSt.inflight.length < cap := by
    show ([] : List Nat).length < cap
    simp
    omega
  unfold mu
  rw [if_pos hin]
  show 2 * ((n - 1) - 0) + 0 < 2 * n + 2
  omega

lemma run_term {n cap : Nat} {sch : Sched} (hcap : 1 ≤ cap)
    (h1 : sch.failSubmit = none) (h2 : sch.failAwait = none) :
    (run n cap sch).err = none ∧ (run n cap sch).nf = n - 1 ∧
    (run n cap sch).ns = n - 1 ∧ (run n cap sch).done = [] ∧
    (run n cap sch).inflight = [] := by
  obtain ⟨hminv, hstop⟩ :=
    mainLoop_spec hcap (2 * n + 2) initSt (inv_init n cap sch) (mu_init_lt hcap)
  have hme : (mainLoop n cap sch (2 * n + 2) initSt).err = none :=
    hminv.herr0 h1 h2
  have hmnf : (mainLoop n cap sch (2 * n + 2) initSt).nf = n - 1 := by
    rcases hstop with hstop | hstop
    · exact absurd hme hstop
    · have := hminv.hnfle
      omega
  have ha := awaitAllStep_inv hminv
  obtain ⟨c1, c2, c3, c4, c5, c6, _, _, _, _⟩ :=
    drainLoop_spec n _ ha (awaitAllStep_inflight sch _) (awaitAll_done_len ha)
  rw [run_eq, if_pos hme]
  have he' : (drainLoop n (awaitAllStep sch (mainLoop n cap sch (2 * n + 2) initSt))).err = none := by
    rw [c4, awaitAllStep_err]
    exact hme
  have hnf' : (drainLoop n (awaitAllStep sch (mainLoop n cap sch (2 * n + 2) initSt))).nf = n - 1 := by
    rw [c5, awaitAllStep_nf]
    exact hmnf
  refine ⟨he', hnf', ?_, c2, c3⟩
  rw [ns_eq_nf_of_empty c1 c3 c2]
  exact hnf'

lemma run_fail_submit {n cap k : Nat} {sch : Sched} (hcap : 1 ≤ cap)
    (hna : sch.failAwait = none) (hfs : sch.failSubmit = some k)
    (hk : k + 1 < n) :
    (run n cap sch).err = some sch.failPayload ∧ (run n cap sch).nf = k := by
  obtain ⟨hminv, hstop⟩ :=
    mainLoop_spec hcap (2 * n + 2) initSt (inv_init n cap sch) (mu_init_lt hcap)
  have hne : ¬ (mainLoop n cap sch (2 * n + 2) initSt).err = none := by
    intro he
    have h3 := hminv.herr3 he k hfs
    rcases hstop with hstop | hstop
    · exact hstop he
    · omega
  obtain ⟨e, hse⟩ : ∃ e, (mainLoop n cap sch (2 * n + 2) initSt).err = some e := by
    cases hme : (mainLoop n cap sch (2 * n + 2) initSt).err with
    | none => exact absurd hme hne
    | some e => exact ⟨e, rfl⟩
  have hrun : run n cap sch = mainLoop n cap sch (2 * n + 2) initSt := by
    rw [run_eq, if_neg hne]
  have hpay : e = sch.failPayload := hminv.herr1 e hse
  have hnf : sch.failSubmit = some (mainLoop n cap sch (2 * n + 2) initSt).nf :=
    hminv.herr2 e hse hna
  rw [hfs] at hnf
  injection hnf with hnf
  constructor
  · rw [hrun, hse, hpay]
  · rw [hrun, ← hnf]

lemma run_drain_log {n cap : Nat} {sch : Sched} (hcap : 1 ≤ cap)
    (h1 : sch.failSubmit = none) (h2 : sch.failAwait = none) :
    ∃ l1 l2, (run n cap sch).log = l1 ++ Ev.awaitAllE :: l2 ∧
      Ev.awaitAny ∉ l2 ∧ countGet l2 = countD l2 := by
  obtain ⟨hminv, _⟩ :=
    mainLoop_spec hcap (2 * n + 2) initSt (inv_init n cap sch) (mu_init_lt hcap)
  have hme : (mainLoop n cap sch (2 * n + 2) initSt).err = none :=
    hminv.herr0 h1 h2
  have ha := awaitAllStep_inv hminv
  obtain ⟨_, _, _, _, _, _, l2, hlog, hcnt, hnaw⟩ :=
    drainLoop_spec n _ ha (awaitAllStep_inflight sch _) (awaitAll_done_len ha)
  obtain ⟨lc, hclog, hcomp⟩ := awaitAllStep_log sch (mainLoop n cap sch (2 * n + 2) initSt)
  obtain ⟨hg0, hd0, hnaw0⟩ := comps_only_counts hcomp
  refine ⟨(mainLoop n cap sch (2 * n + 2) initSt).log, lc ++ l2, ?_, ?_, ?_⟩
  · rw [run_eq, if_pos hme, hlog, hclog]
    simp
  · intro hmem
    rcases List.mem_append.mp hmem with hmem | hmem
    · exact hnaw0 hmem
    · exact hnaw hmem
  · rw [countGet_append, countD_append]
    omega

end RunLemmas

section NoAwaitAllLemmas

lemma completeOne_noAA {sch : Sched} {s : St} (h : Ev.awaitAllE ∉ s.log) :
    Ev.awaitAllE ∉ (completeOne sch s).log := by
  by_cases hne : s.inflight = []
  · simpa [completeOne, hne] using h
  · rw [completeOne_ne sch s hne]
    show Ev.awaitAllE ∉ s.log ++ [Ev.comp (pickId sch s)]
    simp [List.mem_append, h]

lemma completeK_noAA {sch : Sched} :
    ∀ (k : Nat) {s : St}, Ev.awaitAllE ∉ s.log →
      Ev.awaitAllE ∉ (completeK sch k s).log := by
  intro k
  induction k with
  | zero => intro s h; exact h
  | succ m ih => intro s h; exact ih (completeOne_noAA h)

lemma deliverStep_noAA {s : St} (h : Ev.awaitAllE ∉ s.log) :
    Ev.awaitAllE ∉ (deliverStep s).log := by
  by_cases hm : s.ns ∈ s.done
  · rw [deliverStep_mem_eq s hm]
    show Ev.awaitAllE ∉ s.log ++ [Ev.getRes s.ns, Ev.disp s.ns]
    simp [List.mem_append, h]
  · rw [deliverStep_not_mem_eq s hm]
    show Ev.awaitAllE ∉ s.log ++ [Ev.getRes s.ns]
    simp [List.mem_append, h]

lemma submitStep_noAA {sch : Sched} {s : St} (h : Ev.awaitAllE ∉ s.log) :
    Ev.awaitAllE ∉ (submitStep sch s).log := by
  by_cases hf : sch.failSubmit = some s.nf
  · rw [submitStep_fail_eq sch s hf]
    exact h
  · rw [submitStep_ok_eq sch s hf]
    show Ev.awaitAllE ∉ s.log ++ [Ev.sub s.nf]
    simp [List.mem_append, h]

lemma awaitAnyStep_noAA {sch : Sched} {s : St} (h : Ev.awaitAllE ∉ s.log) :
    Ev.awaitAllE ∉ (awaitAnyStep sch s).log := by
  have hmid : Ev.awaitAllE ∉
      ({ s with log := s.log ++ [Ev.awaitAny], a := s.a + 1 } : St).log := by
    show Ev.awaitAllE ∉ s.log ++ [Ev.awaitAny]
    simp [List.mem_append, h]
  by_cases hfa : sch.failAwait = some s.a
  · have heq : awaitAnyStep sch s =
        { s with log := s.log ++ [Ev.awaitAny], a := s.a + 1,
                 err := some sch.failPayload } := by
      simp [awaitAnyStep, hfa]
    rw [heq]
    show Ev.awaitAllE ∉ s.log ++ [Ev.awaitAny]
    simp [List.mem_append, h]
  · have heq : awaitAnyStep sch s =
        completeOne sch { s with log := s.log ++ [Ev.awaitAny], a := s.a + 1 } := by
      simp [awaitAnyStep, hfa]
    rw [heq]
    exact completeOne_noAA hmid

lemma midSt_noAA {sch : Sched} {s : St} (h : Ev.awaitAllE ∉ s.log) :
    Ev.awaitAllE ∉ (midSt sch s).log := by
  unfold midSt
  exact completeK_noAA _ (deliverStep_noAA (completeK_noAA _ h))

lemma iterStep_noAA {cap : Nat} {sch : Sched} {s : St}
    (h : Ev.awaitAllE ∉ s.log) :
    Ev.awaitAllE ∉ (iterStep cap sch s).log := by
  by_cases hc : (midSt sch s).inflight.length < cap
  · rw [iterStep_pos cap sch s hc]
    exact submitStep_noAA (midSt_noAA h)
  · rw [iterStep_neg cap sch s hc]
    exact awaitAnyStep_noAA (midSt_noAA h)

lemma mainLoop_noAA {n cap : Nat} {sch : Sched} :
    ∀ (fuel : Nat) {s : St}, Ev.awaitAllE ∉ s.log →
      Ev.awaitAllE ∉ (mainLoop n cap sch fuel s).log := by
  intro fuel
  induction fuel with
  | zero => intro s h; exact h
  | succ m ih =>
    intro s h
    by_cases hgo : s.err = none ∧ s.nf < n - 1
    · rw [mainLoop_go m hgo]
      exact ih (iterStep_noAA h)
    · rw [mainLoop_stop (m + 1) hgo]
      exact h

lemma run_err_noAA {n cap : Nat} {sch : Sched}
    (hne : ¬ (run n cap sch).err = none) :
    Ev.awaitAllE ∉ (run n cap sch).log := by
  by_cases he : (mainLoop n cap sch (2 * n + 2) initSt).err = none
  · exfalso
    apply hne
    rw [run_eq, if_pos he]
    have ha := awaitAllStep_inv (mainLoop_inv (2 * n + 2) initSt (inv_init n cap sch))
    obtain ⟨_, _, _, c4, _, _, _⟩ :=
      drainLoop_spec n _ ha (awaitAllStep_inflight sch _) (awaitAll_done_len ha)
    rw [c4, awaitAllStep_err, he]
  · rw [run_eq, if_neg he]
    exact mainLoop_noAA _ (by simp [initSt])

end NoAwaitAllLemmas

/-- Schedule for the capacity-bound counterexample: the engine completes the
second submitted request early (just before loop iteration 2), so a third
request is submitted while the first is still in flight and the completed
second is still buffered, undelivered. -/
def schedC5 : Sched :=
  { preA := fun t => if t = 2 then 1 else 0, preB := fun _ => 0,
    pick := fun _ => 1,
    failSubmit := none, failAwait := none, failPayload := 0 }

/-- Schedule for the draining counterexample: completions for ids 1 and 2
arrive early and sit buffered while id 0 is still running, forcing the
driver to interleave polls between the buffered consecutive deliveries. -/
def schedC8 : Sched :=
  { preA := fun t => if t = 2 then 1 else if t = 3 then 1 else 0,
    preB := fun _ => 0,
    pick := fun c => if c = 0 then 1 else if c = 1 then 1 else 0,
    failSubmit := none, failAwait := none, failPayload := 0 }

/-- Schedule on which the engine raises (payload 7) on the submission of
sequence id 2, i.e. on the third submission. -/
def schedFail : Sched :=
  { schedNone with failSubmit := some 2, failPayload := 7 }

/-- Schedule on which the engine raises (payload 9) on the first blocking
`await_any` poll. -/
def schedFailPoll : Sched :=
  { schedNone with failAwait := some 0, failPayload := 9 }

/-- C1: for every finite input list and every completion order the engine
produces (every schedule), the driver delivers results in exactly the input
order: the delivered sequence ids are `0, 1, 2, ...` with no reordering, and
the delivered payloads are the results of a prefix of the inputs in input
order (the i-th delivered result is the result for `inputs[i]`). -/
theorem claim_C1_order_preservation {α β : Type} (f : α → β) (inputs : List α)
    (cap : Nat) (sch : Sched) :
    disps (run inputs.length cap sch).log =
      List.range (run inputs.length cap sch).ns ∧
    runResults f inputs cap sch =
      (inputs.take (run inputs.length cap sch).ns).map f := by
  have h := run_inv inputs.length cap sch
  refine ⟨h.hdisp, ?_⟩
  have hbound : (run inputs.length cap sch).ns ≤ inputs.length := by
    have h1 := h.hns
    have h2 := h.hnfle
    omega
  unfold runResults
  rw [h.hdisp, filterMap_getElem_range inputs _ hbound]

/-- C2 (code evaluated at the failing input): on 3 inputs with capacity 1
and a FIFO engine, the run delivers only the results for ids 0 and 1 — two
results, not three.  The loop bound `next_frame_id < len(imagelist) - 1`
never submits the last input. -/
theorem claim_C2_delivers_two_of_three :
    disps (run 3 1 schedNone).log = [0, 1] ∧
    (disps (run 3 1 schedNone).log).length = 2 := by decide

/-- C3 counterexample: invoked on an empty input list, the driver raises
nothing — it returns normally having submitted nothing and delivered
nothing (and it still calls `await_all`, so it does interact with the
engine rather than failing fast before doing so). -/
theorem claim_C3_counterexample :
    (run 0 2 schedNone).err = none ∧
    (run 0 2 schedNone).log = [Ev.awaitAllE] ∧
    disps (run 0 2 schedNone).log = [] ∧
    subs (run 0 2 schedNone).log = [] := by decide

/-- C3 amended: on an input sequence of length 0 the driver does not raise;
for every capacity and schedule it returns normally with no submissions and
no deliveries (a silently empty result sequence). -/
theorem claim_C3_empty_silent (cap : Nat) (sch : Sched) :
    (run 0 cap sch).err = none ∧ disps (run 0 cap sch).log = [] ∧
    subs (run 0 cap sch).log = [] :=
  ⟨rfl, rfl, rfl⟩

/-- C4 (code evaluated at the failing input): on 2 inputs with capacity 1
and a FIFO engine, only sequence id 0 is ever submitted; input 1 — the last
input — is never submitted, so not every input is submitted exactly once. -/
theorem claim_C4_last_never_submitted :
    subs (run 2 1 schedNone).log = [0] ∧
    1 ∉ subs (run 2 1 schedNone).log := by decide

/-- C5 counterexample: with capacity 2 and a schedule on which the second
request completes early, the number of outstanding (submitted, undelivered)
requests reaches 3, exceeding the capacity 2: the completed-but-undelivered
result buffered inside the engine frees a request slot. -/
theorem claim_C5_counterexample :
    (run 4 2 schedC5).maxOutstanding = 3 := by decide

/-- C5 amended: for every run, the number of in-flight requests (submitted
to the engine and not yet completed) never exceeds `capacity` — the driver
submits only when the engine reports capacity — but the outstanding
(submitted, undelivered) count may exceed `capacity` by the number of
buffered completed results. -/
theorem claim_C5_inflight_bound (n cap : Nat) (sch : Sched) :
    (run n cap sch).maxInflight ≤ cap :=
  (run_inv n cap sch).hmaxI

/-- C6: engine errors propagate.  First part, for every schedule and
whatever the failure point — a submission or a blocking `await_any` poll —
if the run surfaces an error then it is the engine's error verbatim (the
opaque payload unchanged, not wrapped or suppressed), the submissions
performed are exactly ids `0, ..., nf-1` each once (no retry, no further
submissions), the results delivered before the failing call stand (exactly
ids `0, ..., ns-1`, in order, with `ns ≤ nf`), and the run stopped at that
point: `await_all` and the drain phase never happen.  Second part: an
injected failure on the submission of id `k` with `k + 1 < n` is actually
reached and surfaces, with the submission cursor stopped at `k`. -/
theorem claim_C6_engine_error_propagation (n cap : Nat) (sch : Sched)
    (hcap : 1 ≤ cap) :
    (∀ e, (run n cap sch).err = some e →
      e = sch.failPayload ∧
      subs (run n cap sch).log = List.range (run n cap sch).nf ∧
      disps (run n cap sch).log = List.range (run n cap sch).ns ∧
      (run n cap sch).ns ≤ (run n cap sch).nf ∧
      Ev.awaitAllE ∉ (run n cap sch).log) ∧
    (∀ k, sch.failAwait = none → sch.failSubmit = some k → k + 1 < n →
      (run n cap sch).err = some sch.failPayload ∧
      (run n cap sch).nf = k) := by
  have h := run_inv n cap sch
  constructor
  · intro e he
    refine ⟨h.herr1 e he, h.hsub, h.hdisp, h.hns, ?_⟩
    exact run_err_noAA (by rw [he]; simp)
  · intro k hna hfs hk
    exact run_fail_submit hcap hna hfs hk

/-- C6 witness: both failure points exercised.  A poll failure: 3 inputs,
capacity 1, the engine raises (payload 9) on the first `await_any` — the
error surfaces verbatim with id 0 submitted, nothing delivered, and no
`await_all`.  A submission failure: 5 inputs, capacity 2, the engine raises
(payload 7) on the 3rd submission — it is reached and the cursor stops at
2. -/
theorem claim_C6_witness :
    (9 = schedFailPoll.failPayload ∧
     subs (run 3 1 schedFailPoll).log = List.range (run 3 1 schedFailPoll).nf ∧
     disps (run 3 1 schedFailPoll).log = List.range (run 3 1 schedFailPoll).ns ∧
     (run 3 1 schedFailPoll).ns ≤ (run 3 1 schedFailPoll).nf ∧
     Ev.awaitAllE ∉ (run 3 1 schedFailPoll).log) ∧
    ((run 5 2 schedFail).err = some schedFail.failPayload ∧
     (run 5 2 schedFail).nf = 2) :=
  ⟨(claim_C6_engine_error_propagation 3 1 schedFailPoll (by decide)).1 9 (by decide),
   (claim_C6_engine_error_propagation 5 2 schedFail (by decide)).2 2 rfl rfl (by decide)⟩

/-- C7 (code evaluated at the failing input): on 2 inputs with capacity 1
and an engine that completes every submitted request, the run terminates
normally, but with the delivery cursor at 1 = len - 1, not at len = 2: the
last input was never submitted, so `next_expected_id` never reaches
`len(inputs)`. -/
theorem claim_C7_early_termination :
    (run 2 1 schedNone).err = none ∧ (run 2 1 schedNone).done = [] ∧
    (run 2 1 schedNone).inflight = [] ∧ (run 2 1 schedNone).ns = 1 := by decide

/-- C8 counterexample: with capacity 2 and completion order making ids 1, 2
arrive while id 0 is still running, the completion of id 2 is already
buffered before id 1 is delivered (so 1, 2 form a consecutive deliverable
run), yet the driver issues an additional blocking `await_any` poll between
delivering 1 and delivering 2. -/
theorem claim_C8_counterexample :
    Ev.comp 2 ∈ prefTo (Ev.disp 1) (run 8 2 schedC8).log ∧
    countAw (prefTo (Ev.disp 2) (run 8 2 schedC8).log) =
      countAw (prefTo (Ev.disp 1) (run 8 2 schedC8).log) + 1 ∧
    Ev.disp 1 ∈ (run 8 2 schedC8).log ∧
    Ev.disp 2 ∈ (run 8 2 schedC8).log := by decide

/-- C8 amended: during the main loop the driver delivers at most one
buffered completion per iteration and may poll between consecutive buffered
deliveries; it is the post-submission drain phase that delivers every
remaining buffered completion in one pass: after the `await_all` event no
`await_any` poll occurs and every `get_result` call there delivers. -/
theorem claim_C8_drain_one_pass (n cap : Nat) (sch : Sched) (hcap : 1 ≤ cap)
    (h1 : sch.failSubmit = none) (h2 : sch.failAwait = none) :
    (run n cap sch).done = [] ∧ (run n cap sch).ns = n - 1 ∧
    ∃ l1 l2, (run n cap sch).log = l1 ++ Ev.awaitAllE :: l2 ∧
      Ev.awaitAny ∉ l2 ∧ countGet l2 = countD l2 := by
  obtain ⟨_, _, hns, hdone, _⟩ := run_term hcap h1 h2
  exact ⟨hdone, hns, run_drain_log hcap h1 h2⟩

/-- C8 witness: the drain-phase one-pass property at 3 inputs, capacity 1,
FIFO completion. -/
theorem claim_C8_witness :
    (run 3 1 schedNone).done = [] ∧ (run 3 1 schedNone).ns = 3 - 1 ∧
    ∃ l1 l2, (run 3 1 schedNone).log = l1 ++ Ev.awaitAllE :: l2 ∧
      Ev.awaitAny ∉ l2 ∧ countGet l2 = countD l2 :=
  claim_C8_drain_one_pass 3 1 schedNone (by decide) rfl rfl

/-- C9: for an input list of length exactly 1 the main loop body never
executes: nothing is submitted, no `get_result` call is made, nothing is
delivered, and the run returns normally after `await_all` and the drain
check — the whole log is the single `await_all` event. -/
theorem claim_C9_single_input (cap : Nat) (sch : Sched) :
    (run 1 cap sch).log = [Ev.awaitAllE] ∧
    subs (run 1 cap sch).log = [] ∧
    disps (run 1 cap sch).log = [] ∧
    (run 1 cap sch).err = none ∧
    (run 1 cap sch).ns = 0 :=
  ⟨rfl, rfl, rfl, rfl, rfl⟩

/-- C10: in every run (the engine completes only previously submitted ids
by construction), at every point of the history the delivery cursor never
outruns the submission cursor (no log prefix has more deliveries than
submissions), the delivery cursor increments by exactly 1 per delivered
result (the delivered ids are exactly `0, ..., countD - 1` in order), and
every `get_result` call asks exactly for the current cursor — never for an
already-delivered id. -/
theorem claim_C10_cursor_invariants (n cap : Nat) (sch : Sched) :
    (∀ k, countD ((run n cap sch).log.take k) ≤
      countS ((run n cap sch).log.take k)) ∧
    disps (run n cap sch).log = List.range (countD (run n cap sch).log) ∧
    (∀ k i, (run n cap sch).log[k]? = some (Ev.getRes i) →
      i = countD ((run n cap sch).log.take k) ∧
      Ev.disp i ∉ (run n cap sch).log.take k) := by
  have h := run_inv n cap sch
  refine ⟨h.hds, ?_, ?_⟩
  · rw [h.cntD, h.hdisp]
  · intro k i hki
    have h1 := h.hget k i hki
    refine ⟨h1, ?_⟩
    intro hmem
    have h2 := mem_disps hmem
    rw [h.htd k, List.mem_range] at h2
    omega

/-- C10 witness: the first `get_result` call of a concrete run asks for id
0, the cursor value, which is not among the (zero) deliveries so far. -/
theorem claim_C10_witness :
    0 = countD ((run 3 1 schedNone).log.take 0) ∧
    Ev.disp 0 ∉ (run 3 1 schedNone).log.take 0 :=
  (claim_C10_cursor_invariants 3 1 schedNone).2.2 0 0 (by decide)
